import Mathlib

/-
Verification of the repackage utility: a script that archives the directory
containing it into a zip file at the directory's parent, excluding every file
named repackage.py.

The filesystem is modelled shallowly: a path is a list of name components, a
world is the list of regular files present (path plus contents).  The script's
steps are translated one by one:

  script_dir = Path(__file__).parent          -> script_dir parent name
  skill_name = script_dir.name                -> name
  zip_path = script_dir.parent / (skill_name + ".zip")  -> zip_path parent name
  if zip_path.exists(): zip_path.unlink()     -> removeOld
  for file_path in script_dir.rglob(star):
    if file_path.is_file() and file_path.name != 'repackage.py':
      arcname = file_path.relative_to(script_dir.parent)
      zf.write(file_path, arcname)            -> archiveOf

A world holds only regular files, so the is_file test is absorbed by the model.
-/

namespace Repackage

/-- A filesystem path: the list of its name components, absolute. -/
abbrev FsPath := List String

/-- File contents as a list of bytes. -/
abbrev Bytes := List Nat

/-- A regular file: its absolute path and its contents. -/
structure FSFile where
  path : FsPath
  contents : Bytes
deriving DecidableEq, Repr

/-- The filesystem state: the regular files present, as a list. -/
abbrev World := List FSFile

/-- The directory containing the script, named by its parent and base name. -/
def script_dir (parent : FsPath) (name : String) : FsPath := parent ++ [name]

/-- The destination: the parent of script_dir joined with the skill name plus a zip suffix. -/
def zip_path (parent : FsPath) (name : String) : FsPath := parent ++ [name ++ ".zip"]

/-- Whether path p lies strictly below directory dir. -/
def underDir (dir p : FsPath) : Bool :=
  decide (p.take dir.length = dir) && decide (dir.length < p.length)

/-- The recursive glob over dir: every file of the world below dir, in world order. -/
def rglob (dir : FsPath) (w : World) : List FSFile :=
  w.filter (fun f => underDir dir f.path)

/-- The path p computed relative to base, as in file_path.relative_to(base). -/
def relative_to (base : FsPath) (p : FsPath) : FsPath := p.drop base.length

/-- The base name of a path, as in file_path.name. -/
def baseName (p : FsPath) : String := p.getLastD ""

/-- Whether a file exists at path p, as in zip_path.exists(). -/
def fileExists (p : FsPath) (w : World) : Bool :=
  w.any (fun f => decide (f.path = p))

/-- Removal of the file at path p, as in zip_path.unlink(). -/
def unlink (p : FsPath) (w : World) : World :=
  w.filter (fun f => !decide (f.path = p))

/-- The remove-old-zip step: if zip_path.exists() then zip_path.unlink(). -/
def removeOld (parent : FsPath) (name : String) (w : World) : World :=
  if fileExists (zip_path parent name) w then unlink (zip_path parent name) w else w

/-- A zip entry: the archive-relative name it is stored under, and its data. -/
structure Entry where
  arcname : FsPath
  data : Bytes
deriving DecidableEq, Repr

/-- The loop's guard on a file of the world: file_path.name != 'repackage.py'
(the is_file conjunct holds for every world member). -/
def kept (f : FSFile) : Bool := decide (baseName f.path ≠ "repackage.py")

/-- The entry written for a file: arcname = file_path.relative_to(script_dir.parent). -/
def entryOf (parent : FsPath) (f : FSFile) : Entry :=
  ⟨relative_to parent f.path, f.contents⟩

/-- The write loop: for each file of rglob(script_dir), if kept, write its entry. -/
def archiveOf (parent : FsPath) (name : String) (w : World) : List Entry :=
  (rglob (script_dir parent name) w).filterMap (fun f =>
    if kept f then some (entryOf parent f) else none)

/-- An injective byte encoding of a string: length then character codes. -/
def encodeStr (s : String) : Bytes := s.length :: s.toList.map Char.toNat

/-- A byte encoding of a path: component count then encoded components. -/
def encodePath (p : FsPath) : Bytes := p.length :: (p.map encodeStr).flatten

/-- A byte encoding of one zip entry: its name then its data with length. -/
def encodeEntry (e : Entry) : Bytes := encodePath e.arcname ++ e.data.length :: e.data

/-- The finalized zip file: entry count record followed by the entries. -/
def zipEncode (es : List Entry) : Bytes := es.length :: (es.map encodeEntry).flatten

/-- An unfinalized zip left behind by a failed run: the entries written so far
without the final count record. -/
def truncEncode (es : List Entry) : Bytes := (es.map encodeEntry).flatten

/-- One whole run of the script on a world: remove the old zip, then write the
new archive at zip_path. -/
def run (parent : FsPath) (name : String) (w : World) : World :=
  let w1 := removeOld parent name w
  ⟨zip_path parent name, zipEncode (archiveOf parent name w1)⟩ :: w1

/-- Extraction of a list of entries at a target directory: each entry becomes a
file at target joined with its archive-relative name. -/
def extractTo (target : FsPath) (es : List Entry) : World :=
  es.map (fun e => ⟨target ++ e.arcname, e.data⟩)

/-- Events on the archive file handle during a run. -/
inductive Event where
  | openHandle : Event
  | writeEntry : FsPath → Event
  | closeHandle : Event
deriving DecidableEq, Repr

/-- The observable outcome of a run under a failure oracle: the final world,
the handle trace, the propagated exception if any, and whether the archive was
finalized. -/
structure RunResult where
  world : World
  trace : List Event
  outcome : Except String Unit
  finalized : Bool

/-- The write loop under a read oracle that may raise a filesystem error per
path: returns the entries written before any failure, and the first error
raised, which the loop does not catch. -/
def writeEntries (ro : FsPath → Option String) (parent : FsPath) :
    List FSFile → List Entry × Option String
  | [] => ([], none)
  | f :: rest =>
    if kept f then
      match ro f.path with
      | some e => ([], some e)
      | none =>
        let r := writeEntries ro parent rest
        (entryOf parent f :: r.1, r.2)
    else writeEntries ro parent rest

/-- One whole run under a read oracle: the with-statement semantics close the
handle on both the normal and the exceptional exit of the loop; an uncaught
error leaves the unfinalized file in place and propagates. -/
def runE (ro : FsPath → Option String) (parent : FsPath) (name : String)
    (w : World) : RunResult :=
  let w1 := removeOld parent name w
  let r := writeEntries ro parent (rglob (script_dir parent name) w1)
  match r.2 with
  | none =>
    { world := ⟨zip_path parent name, zipEncode r.1⟩ :: w1
      trace := Event.openHandle :: (r.1.map fun e => Event.writeEntry e.arcname)
                 ++ [Event.closeHandle]
      outcome := Except.ok ()
      finalized := true }
  | some e =>
    { world := ⟨zip_path parent name, truncEncode r.1⟩ :: w1
      trace := Event.openHandle :: (r.1.map fun e => Event.writeEntry e.arcname)
                 ++ [Event.closeHandle]
      outcome := Except.error e
      finalized := false }

/-- The process exit status: zero on success, nonzero when an uncaught
exception terminates the interpreter. -/
def exitCode (r : RunResult) : Nat :=
  match r.outcome with
  | Except.ok _ => 0
  | Except.error _ => 1

/-- The error e is the first filesystem error the loop meets over the listed
files: some kept file raises it and every kept file before it reads fine. -/
def FirstFailure (ro : FsPath → Option String) (files : List FSFile)
    (e : String) : Prop :=
  ∃ l f r, files = l ++ f :: r ∧ kept f = true ∧ ro f.path = some e ∧
    ∀ g ∈ l, kept g = true → ro g.path = none

/-- A concrete sample filesystem used by the witness theorems: the tree
home/debug containing a.txt, b/c.txt and a nested copy of repackage.py,
next to a leftover archive home/debug.zip from an earlier run. -/
def sampleWorld : World :=
  [⟨["home", "debug", "a.txt"], [10, 20]⟩,
   ⟨["home", "debug", "b", "c.txt"], [30]⟩,
   ⟨["home", "debug", "repackage.py"], [1, 2, 3]⟩,
   ⟨["home", "debug", "b", "repackage.py"], [4]⟩,
   ⟨["home", "debug.zip"], [9]⟩]

/-- A read oracle under which every file read raises a disk error. -/
def failingOracle : FsPath → Option String := fun _ => some "EIO"

section Lemmas

lemma mem_rglob {dir : FsPath} {w : World} {f : FSFile} :
    f ∈ rglob dir w ↔ f ∈ w ∧ underDir dir f.path = true := by
  simp [rglob, List.mem_filter]

lemma archiveOf_eq (parent : FsPath) (name : String) (w : World) :
    archiveOf parent name w =
      ((rglob (script_dir parent name) w).filter kept).map (entryOf parent) := by
  unfold archiveOf
  induction rglob (script_dir parent name) w with
  | nil => rfl
  | cons f rest ih =>
    by_cases h : kept f = true
    · simp [List.filterMap_cons, List.filter_cons, h, ih]
    · simp [List.filterMap_cons, List.filter_cons, h, ih]

lemma underDir_decomp {parent : FsPath} {name : String} {p : FsPath}
    (h : underDir (script_dir parent name) p = true) :
    p = parent ++ name :: p.drop (parent.length + 1) ∧
      p.drop (parent.length + 1) ≠ [] := by
  have hlen : (script_dir parent name).length = parent.length + 1 := by
    simp [script_dir]
  have htake : p.take (parent.length + 1) = parent ++ [name] := by
    have := (Bool.and_eq_true _ _).mp h
    have h1 := of_decide_eq_true this.1
    rw [hlen] at h1
    simpa [script_dir] using h1
  have hlt : parent.length + 1 < p.length := by
    have := (Bool.and_eq_true _ _).mp h
    have h2 := of_decide_eq_true this.2
    rwa [hlen] at h2
  constructor
  · conv_lhs => rw [← List.take_append_drop (parent.length + 1) p]
    rw [htake]
    simp
  · intro hnil
    have : p.length ≤ parent.length + 1 := by
      have := List.drop_eq_nil_iff.mp hnil
      omega
    omega

lemma relative_to_of_underDir {parent : FsPath} {name : String} {p : FsPath}
    (h : underDir (script_dir parent name) p = true) :
    relative_to parent p = name :: p.drop (parent.length + 1) := by
  obtain ⟨hp, _⟩ := underDir_decomp h
  conv_lhs => rw [relative_to, hp]
  rw [show parent ++ name :: p.drop (parent.length + 1) =
        parent ++ (name :: p.drop (parent.length + 1)) from rfl]
  exact List.drop_left parent _

lemma append_relative_to {parent : FsPath} {name : String} {p : FsPath}
    (h : underDir (script_dir parent name) p = true) :
    parent ++ relative_to parent p = p := by
  obtain ⟨hp, _⟩ := underDir_decomp h
  rw [relative_to_of_underDir h]
  exact hp.symm

lemma zip_name_ne (name : String) : name ++ ".zip" ≠ name := by
  intro h
  have := congrArg String.length h
  rw [String.length_append] at this
  have h4 : ".zip".length = 4 := rfl
  omega

lemma underDir_zip (parent : FsPath) (name : String) :
    underDir (script_dir parent name) (zip_path parent name) = false := by
  unfold underDir script_dir zip_path
  have hlen : (parent ++ [name ++ ".zip"]).length = (parent ++ [name]).length := by
    simp
  rw [List.take_of_length_le (by simp)]
  have hne : parent ++ [name ++ ".zip"] ≠ parent ++ [name] := by
    intro h
    have := List.append_cancel_left h
    simp at this
    exact zip_name_ne name this
  simp [hne]

lemma mem_archiveOf {parent : FsPath} {name : String} {w : World} {e : Entry} :
    e ∈ archiveOf parent name w ↔
      ∃ f, f ∈ w ∧ underDir (script_dir parent name) f.path = true ∧
        baseName f.path ≠ "repackage.py" ∧ e = entryOf parent f := by
  rw [archiveOf_eq]
  simp only [List.mem_map, List.mem_filter, mem_rglob, kept, decide_eq_true_eq]
  constructor
  · rintro ⟨f, ⟨⟨hfw, hu⟩, hb⟩, rfl⟩
    exact ⟨f, hfw, hu, hb, rfl⟩
  · rintro ⟨f, hfw, hu, hb, rfl⟩
    exact ⟨f, ⟨⟨hfw, hu⟩, hb⟩, rfl⟩

end Lemmas

section Theorems

/-- C1: on a world whose file paths are distinct, as the filesystem guarantees,
the archive has no duplicate archive-relative names, and its entries are
exactly one per regular file below the source directory whose base name is not
repackage.py, and no others. -/
theorem spec_c1 (parent : FsPath) (name : String) (w : World)
    (hnd : (w.map FSFile.path).Nodup) :
    ((archiveOf parent name w).map Entry.arcname).Nodup ∧
    ∀ e, e ∈ archiveOf parent name w ↔
      ∃ f, f ∈ w ∧ underDir (script_dir parent name) f.path = true ∧
        baseName f.path ≠ "repackage.py" ∧ e = entryOf parent f := by
  refine ⟨?_, fun e => mem_archiveOf⟩
  rw [archiveOf_eq]
  have hsub : List.Sublist ((rglob (script_dir parent name) w).filter kept) w :=
    (List.filter_sublist _).trans (List.filter_sublist _)
  have hndl : (((rglob (script_dir parent name) w).filter kept).map
      FSFile.path).Nodup := hnd.sublist (hsub.map FSFile.path)
  have hinj := List.inj_on_of_nodup_map hndl
  have hnodupl : ((rglob (script_dir parent name) w).filter kept).Nodup :=
    hndl.of_map _
  rw [List.map_map]
  apply hnodupl.map_on
  intro x hx y hy hxy
  have hux : underDir (script_dir parent name) x.path = true :=
    (mem_rglob.mp (List.mem_of_mem_filter hx)).2
  have huy : underDir (script_dir parent name) y.path = true :=
    (mem_rglob.mp (List.mem_of_mem_filter hy)).2
  apply hinj hx hy
  have hrel : relative_to parent x.path = relative_to parent y.path := hxy
  rw [← append_relative_to hux, ← append_relative_to huy, hrel]

/-- Witness for C1 on the sample world. -/
theorem spec_c1_witness :
    ((sampleWorld.map FSFile.path).Nodup) ∧
    (((archiveOf ["home"] "debug" sampleWorld).map Entry.arcname).Nodup ∧
     ∀ e, e ∈ archiveOf ["home"] "debug" sampleWorld ↔
       ∃ f, f ∈ sampleWorld ∧
         underDir (script_dir ["home"] "debug") f.path = true ∧
         baseName f.path ≠ "repackage.py" ∧ e = entryOf ["home"] f) :=
  ⟨by decide, spec_c1 ["home"] "debug" sampleWorld (by decide)⟩

/-- C2: every entry's name is its file's path relative to the parent of the
source directory, so joining the parent back in front recovers the original
path, every entry name starts with the source directory's base name, and the
entry data are the file's contents. -/
theorem spec_c2 (parent : FsPath) (name : String) (w : World) (e : Entry)
    (he : e ∈ archiveOf parent name w) :
    (∃ f, f ∈ w ∧ e.arcname = relative_to parent f.path ∧
       parent ++ e.arcname = f.path ∧ e.data = f.contents) ∧
    ∃ rest, e.arcname = name :: rest := by
  obtain ⟨f, hfw, hu, hb, rfl⟩ := mem_archiveOf.mp he
  refine ⟨⟨f, hfw, rfl, append_relative_to hu, rfl⟩, ?_⟩
  exact ⟨_, relative_to_of_underDir hu⟩

/-- Witness for C2 on the sample world. -/
theorem spec_c2_witness :
    ((⟨["debug", "a.txt"], [10, 20]⟩ : Entry) ∈
       archiveOf ["home"] "debug" sampleWorld) ∧
    ((∃ f, f ∈ sampleWorld ∧
        (⟨["debug", "a.txt"], [10, 20]⟩ : Entry).arcname =
          relative_to ["home"] f.path ∧
        ["home"] ++ (⟨["debug", "a.txt"], [10, 20]⟩ : Entry).arcname = f.path ∧
        (⟨["debug", "a.txt"], [10, 20]⟩ : Entry).data = f.contents) ∧
     ∃ rest, (⟨["debug", "a.txt"], [10, 20]⟩ : Entry).arcname = "debug" :: rest) :=
  ⟨by decide,
   spec_c2 ["home"] "debug" sampleWorld ⟨["debug", "a.txt"], [10, 20]⟩ (by decide)⟩

/-- C3: exclusion is by base name alone, at any depth: a file below the source
directory whose base name is repackage.py contributes no entry, and no entry
carries its archive-relative name. -/
theorem spec_c3 (parent : FsPath) (name : String) (w : World) (f : FSFile)
    (hfw : f ∈ w) (hu : underDir (script_dir parent name) f.path = true)
    (hb : baseName f.path = "repackage.py") :
    entryOf parent f ∉ archiveOf parent name w ∧
    ∀ e ∈ archiveOf parent name w, e.arcname ≠ relative_to parent f.path := by
  have h2 : ∀ e ∈ archiveOf parent name w,
      e.arcname ≠ relative_to parent f.path := by
    intro e he hc
    obtain ⟨g, hgw, hug, hbg, rfl⟩ := mem_archiveOf.mp he
    have hpaths : g.path = f.path := by
      have hcg : relative_to parent g.path = relative_to parent f.path := hc
      rw [← append_relative_to hug, ← append_relative_to hu, hcg]
    rw [hpaths] at hbg
    exact hbg hb
  exact ⟨fun hmem => h2 _ hmem rfl, h2⟩

/-- Witness for C3: the nested file b/repackage.py of the sample world is
excluded even though it is not the packaging tool itself. -/
theorem spec_c3_witness :
    ((⟨["home", "debug", "b", "repackage.py"], [4]⟩ : FSFile) ∈ sampleWorld) ∧
    (underDir (script_dir ["home"] "debug")
       ["home", "debug", "b", "repackage.py"] = true) ∧
    (baseName ["home", "debug", "b", "repackage.py"] = "repackage.py") ∧
    (entryOf ["home"] ⟨["home", "debug", "b", "repackage.py"], [4]⟩ ∉
       archiveOf ["home"] "debug" sampleWorld ∧
     ∀ e ∈ archiveOf ["home"] "debug" sampleWorld,
       e.arcname ≠ relative_to ["home"] ["home", "debug", "b", "repackage.py"]) :=
  ⟨by decide, by decide, by decide,
   spec_c3 ["home"] "debug" sampleWorld ⟨["home", "debug", "b", "repackage.py"], [4]⟩
     (by decide) (by decide) (by decide)⟩

end Theorems

section RunLemmas

lemma fileExists_unlink (p : FsPath) (w : World) :
    fileExists p (unlink p w) = false := by
  rw [fileExists, List.any_eq_false]
  intro f hf
  have h := List.of_mem_filter hf
  simpa using h

lemma unlink_of_not_exists {p : FsPath} {w : World}
    (h : fileExists p w = false) : unlink p w = w := by
  rw [unlink]
  apply List.filter_eq_self.mpr
  intro f hf
  rw [fileExists, List.any_eq_false] at h
  simpa using h f hf

lemma removeOld_no_file (parent : FsPath) (name : String) (w : World) :
    fileExists (zip_path parent name) (removeOld parent name w) = false := by
  rw [removeOld]
  by_cases h : fileExists (zip_path parent name) w = true
  · simp [h, fileExists_unlink]
  · rw [Bool.not_eq_true] at h
    simp [h]

lemma rglob_unlink_zip (parent : FsPath) (name : String) (w : World) :
    rglob (script_dir parent name) (unlink (zip_path parent name) w) =
      rglob (script_dir parent name) w := by
  rw [rglob, unlink, List.filter_filter]
  apply List.filter_congr
  intro f hf
  by_cases hu : underDir (script_dir parent name) f.path = true
  · have hz : f.path ≠ zip_path parent name := by
      intro h
      rw [h, underDir_zip] at hu
      exact Bool.false_ne_true hu
    simp [hu, hz]
  · rw [Bool.not_eq_true] at hu
    simp [hu]

lemma rglob_removeOld (parent : FsPath) (name : String) (w : World) :
    rglob (script_dir parent name) (removeOld parent name w) =
      rglob (script_dir parent name) w := by
  rw [removeOld]
  by_cases h : fileExists (zip_path parent name) w = true
  · simp [h, rglob_unlink_zip]
  · rw [Bool.not_eq_true] at h
    simp [h]

lemma run_eq (parent : FsPath) (name : String) (w : World) :
    run parent name w =
      ⟨zip_path parent name,
        zipEncode (archiveOf parent name (removeOld parent name w))⟩ ::
        removeOld parent name w := rfl

lemma unlink_cons_self (p : FsPath) (c : Bytes) (w : World) :
    unlink p (⟨p, c⟩ :: w) = unlink p w := by
  simp [unlink, List.filter_cons]

lemma removeOld_run (parent : FsPath) (name : String) (w : World) :
    removeOld parent name (run parent name w) = removeOld parent name w := by
  have hex : fileExists (zip_path parent name) (run parent name w) = true := by
    simp [run_eq, fileExists]
  rw [removeOld, if_pos hex, run_eq, unlink_cons_self]
  exact unlink_of_not_exists (removeOld_no_file parent name w)

lemma rglob_run (parent : FsPath) (name : String) (w : World) :
    rglob (script_dir parent name) (run parent name w) =
      rglob (script_dir parent name) w := by
  rw [run_eq, rglob, List.filter_cons]
  simp only [underDir_zip, if_false]
  have h := rglob_removeOld parent name w
  rw [rglob, rglob] at h
  exact h

lemma archiveOf_run (parent : FsPath) (name : String) (w : World) :
    archiveOf parent name (run parent name w) = archiveOf parent name w := by
  simp only [archiveOf, rglob_run]

end RunLemmas

section TheoremsTwo

/-- C4: the destination is the source directory's parent joined with the
source base name plus a zip suffix, after the remove step no file remains at
that path, and the run writes the fresh archive exactly there on top of the
cleaned world. -/
theorem spec_c4 (parent : FsPath) (name : String) :
    zip_path parent name = parent ++ [name ++ ".zip"] ∧
    (∀ w, fileExists (zip_path parent name) (removeOld parent name w) = false) ∧
    (∀ w, run parent name w =
      ⟨zip_path parent name,
        zipEncode (archiveOf parent name (removeOld parent name w))⟩ ::
        removeOld parent name w) :=
  ⟨rfl, fun w => removeOld_no_file parent name w, fun w => run_eq parent name w⟩

/-- C5: a second run on the unchanged tree produces the same world and the
same archive as the first: the leftover zip of the first run neither blocks
the second run nor changes what it packages. -/
theorem spec_c5 (parent : FsPath) (name : String) (w : World) :
    run parent name (run parent name w) = run parent name w ∧
    archiveOf parent name (run parent name w) = archiveOf parent name w := by
  refine ⟨?_, archiveOf_run parent name w⟩
  rw [run_eq parent name (run parent name w), removeOld_run, ← run_eq]

/-- C6: extracting the produced archive at the source directory's parent
reproduces, path for path and byte for byte, exactly the regular files of the
tree apart from those the exclusion rule drops. -/
theorem spec_c6 (parent : FsPath) (name : String) (w : World) :
    extractTo parent (archiveOf parent name w) =
      (rglob (script_dir parent name) w).filter kept := by
  rw [archiveOf_eq, extractTo, List.map_map]
  have hcongr : ∀ f ∈ (rglob (script_dir parent name) w).filter kept,
      ((fun e => (⟨parent ++ e.arcname, e.data⟩ : FSFile)) ∘ entryOf parent) f
        = id f := by
    intro f hf
    have hu : underDir (script_dir parent name) f.path = true :=
      (mem_rglob.mp (List.mem_of_mem_filter hf)).2
    show (⟨parent ++ relative_to parent f.path, f.contents⟩ : FSFile) = f
    rw [append_relative_to hu]
  calc ((rglob (script_dir parent name) w).filter kept).map
        ((fun e => (⟨parent ++ e.arcname, e.data⟩ : FSFile)) ∘ entryOf parent)
      = ((rglob (script_dir parent name) w).filter kept).map id :=
        List.map_congr_left hcongr
    _ = (rglob (script_dir parent name) w).filter kept := List.map_id _

end TheoremsTwo

section ErrorLemmas

lemma FirstFailure_nil (ro : FsPath → Option String) (e : String) :
    ¬ FirstFailure ro [] e := by
  rintro ⟨l, f, r, h, -, -, -⟩
  cases l <;> simp at h

lemma FirstFailure_cons_err {ro : FsPath → Option String} {f : FSFile}
    {e0 : String} (hk : kept f = true) (he : ro f.path = some e0)
    (rest : List FSFile) (e : String) :
    FirstFailure ro (f :: rest) e ↔ e = e0 := by
  constructor
  · rintro ⟨l, g, r, hd, hkg, hg, hprev⟩
    cases l with
    | nil =>
      simp only [List.nil_append, List.cons.injEq] at hd
      rw [← hd.1, he] at hg
      exact (Option.some.inj hg).symm
    | cons a l2 =>
      simp only [List.cons_append, List.cons.injEq] at hd
      have hmem : f ∈ a :: l2 := by
        rw [hd.1]
        exact List.mem_cons_self a l2
      have := hprev f hmem hk
      rw [he] at this
      exact absurd this (by simp)
  · rintro rfl
    exact ⟨[], f, rest, rfl, hk, he, by simp⟩

lemma FirstFailure_cons_ok {ro : FsPath → Option String} {f : FSFile}
    (hk : kept f = true) (he : ro f.path = none)
    (rest : List FSFile) (e : String) :
    FirstFailure ro (f :: rest) e ↔ FirstFailure ro rest e := by
  constructor
  · rintro ⟨l, g, r, hd, hkg, hg, hprev⟩
    cases l with
    | nil =>
      simp only [List.nil_append, List.cons.injEq] at hd
      rw [← hd.1, he] at hg
      exact absurd hg (by simp)
    | cons a l2 =>
      simp only [List.cons_append, List.cons.injEq] at hd
      exact ⟨l2, g, r, hd.2, hkg, hg,
        fun x hx hkx => hprev x (List.mem_cons_of_mem a hx) hkx⟩
  · rintro ⟨l, g, r, hd, hkg, hg, hprev⟩
    refine ⟨f :: l, g, r, by rw [hd, List.cons_append], hkg, hg, ?_⟩
    intro x hx hkx
    rcases List.mem_cons.mp hx with rfl | hx2
    · exact he
    · exact hprev x hx2 hkx

lemma FirstFailure_cons_skip {ro : FsPath → Option String} {f : FSFile}
    (hk : kept f = false) (rest : List FSFile) (e : String) :
    FirstFailure ro (f :: rest) e ↔ FirstFailure ro rest e := by
  constructor
  · rintro ⟨l, g, r, hd, hkg, hg, hprev⟩
    cases l with
    | nil =>
      simp only [List.nil_append, List.cons.injEq] at hd
      rw [← hd.1, hk] at hkg
      exact absurd hkg (by simp)
    | cons a l2 =>
      simp only [List.cons_append, List.cons.injEq] at hd
      exact ⟨l2, g, r, hd.2, hkg, hg,
        fun x hx hkx => hprev x (List.mem_cons_of_mem a hx) hkx⟩
  · rintro ⟨l, g, r, hd, hkg, hg, hprev⟩
    refine ⟨f :: l, g, r, by rw [hd, List.cons_append], hkg, hg, ?_⟩
    intro x hx hkx
    rcases List.mem_cons.mp hx with rfl | hx2
    · rw [hk] at hkx
      exact absurd hkx (by simp)
    · exact hprev x hx2 hkx

lemma writeEntries_error (ro : FsPath → Option String) (parent : FsPath) :
    ∀ (files : List FSFile) (e : String),
      (writeEntries ro parent files).2 = some e ↔ FirstFailure ro files e := by
  intro files
  induction files with
  | nil =>
    intro e
    constructor
    · intro h
      exact absurd h (by simp [writeEntries])
    · intro h
      exact absurd h (FirstFailure_nil ro e)
  | cons f rest ih =>
    intro e
    by_cases hk : kept f = true
    · cases he : ro f.path with
      | some e0 =>
        rw [FirstFailure_cons_err hk he]
        simp [writeEntries, hk, he, eq_comm]
      | none =>
        rw [FirstFailure_cons_ok hk he]
        simpa [writeEntries, hk, he] using ih e
    · rw [Bool.not_eq_true] at hk
      rw [FirstFailure_cons_skip hk]
      simpa [writeEntries, hk] using ih e

lemma writeEntries_ok (ro : FsPath → Option String) (parent : FsPath)
    (files : List FSFile)
    (h : ∀ f ∈ files, kept f = true → ro f.path = none) :
    writeEntries ro parent files =
      (files.filterMap (fun f => if kept f then some (entryOf parent f) else none),
       none) := by
  induction files with
  | nil => simp [writeEntries]
  | cons f rest ih =>
    have hrest := ih (fun g hg => h g (List.mem_cons_of_mem f hg))
    by_cases hk : kept f = true
    · have hf := h f (List.mem_cons_self f rest) hk
      simp [writeEntries, hk, hf, hrest, List.filterMap_cons]
    · rw [Bool.not_eq_true] at hk
      simp [writeEntries, hk, hrest, List.filterMap_cons]

lemma runE_outcome (ro : FsPath → Option String) (parent : FsPath)
    (name : String) (w : World) :
    (runE ro parent name w).outcome =
      match (writeEntries ro parent (rglob (script_dir parent name)
          (removeOld parent name w))).2 with
      | none => Except.ok ()
      | some e => Except.error e := by
  cases h : (writeEntries ro parent (rglob (script_dir parent name)
      (removeOld parent name w))).2 with
  | none => simp [runE, h]
  | some e0 => simp [runE, h]

lemma runE_trace (ro : FsPath → Option String) (parent : FsPath)
    (name : String) (w : World) :
    (runE ro parent name w).trace =
      Event.openHandle ::
        ((writeEntries ro parent (rglob (script_dir parent name)
            (removeOld parent name w))).1.map fun e => Event.writeEntry e.arcname)
        ++ [Event.closeHandle] := by
  cases h : (writeEntries ro parent (rglob (script_dir parent name)
      (removeOld parent name w))).2 with
  | none => simp [runE, h]
  | some e0 => simp [runE, h]

end ErrorLemmas

section TheoremsThree

/-- C7: no filesystem error is caught or retried: the run reports an error
exactly when some kept file's read raises one, the error surfaced is the very
first raised, unchanged, the exit status is then nonzero, and when no read
fails the run succeeds with the pure result. -/
theorem spec_c7 (ro : FsPath → Option String) (parent : FsPath) (name : String)
    (w : World) (e : String) :
    ((runE ro parent name w).outcome = Except.error e ↔
      FirstFailure ro (rglob (script_dir parent name) (removeOld parent name w)) e) ∧
    ((runE ro parent name w).outcome = Except.error e →
      exitCode (runE ro parent name w) = 1) ∧
    ((∀ f ∈ rglob (script_dir parent name) (removeOld parent name w),
        kept f = true → ro f.path = none) →
      (runE ro parent name w).outcome = Except.ok () ∧
      (runE ro parent name w).world = run parent name w) := by
  have houtcome : ∀ e1, (runE ro parent name w).outcome = Except.error e1 ↔
      (writeEntries ro parent (rglob (script_dir parent name)
        (removeOld parent name w))).2 = some e1 := by
    intro e1
    rw [runE_outcome]
    cases h : (writeEntries ro parent (rglob (script_dir parent name)
        (removeOld parent name w))).2 with
    | none => simp
    | some e0 => simp
  refine ⟨?_, ?_, ?_⟩
  · exact (houtcome e).trans (writeEntries_error ro parent _ e)
  · intro h
    simp [exitCode, h]
  · intro hok
    have hwe := writeEntries_ok ro parent
      (rglob (script_dir parent name) (removeOld parent name w)) hok
    constructor
    · rw [runE_outcome, hwe]
    · simp [runE, hwe, run_eq, archiveOf]

/-- C8: scoped acquisition with guaranteed release: on every run, failing or
not, the handle trace opens the archive first and its very last event closes
the handle. -/
theorem spec_c8 (ro : FsPath → Option String) (parent : FsPath) (name : String)
    (w : World) :
    (runE ro parent name w).trace.head? = some Event.openHandle ∧
    (runE ro parent name w).trace.getLast? = some Event.closeHandle := by
  rw [runE_trace]
  refine ⟨rfl, ?_⟩
  rw [List.getLast?_concat]

/-- C9: when a read raises mid-way, no cleanup of the partial archive happens:
the unfinalized file is left at the destination, so an output file's presence
does not witness success. -/
theorem spec_c9 (ro : FsPath → Option String) (parent : FsPath) (name : String)
    (w : World) (e : String)
    (h : (runE ro parent name w).outcome = Except.error e) :
    (runE ro parent name w).finalized = false ∧
    fileExists (zip_path parent name) (runE ro parent name w).world = true ∧
    (runE ro parent name w).world =
      ⟨zip_path parent name,
        truncEncode (writeEntries ro parent (rglob (script_dir parent name)
          (removeOld parent name w))).1⟩ :: removeOld parent name w := by
  have hsnd : (writeEntries ro parent (rglob (script_dir parent name)
      (removeOld parent name w))).2 = some e := by
    rw [runE_outcome] at h
    cases hc : (writeEntries ro parent (rglob (script_dir parent name)
        (removeOld parent name w))).2 with
    | none =>
      rw [hc] at h
      exact absurd h (by simp)
    | some e0 =>
      rw [hc] at h
      simp only [Except.error.injEq] at h
      rw [h]
  refine ⟨by simp [runE, hsnd], ?_, by simp [runE, hsnd]⟩
  simp [runE, hsnd, fileExists]

/-- Witness for C9: under an oracle on which every read raises EIO, the run on
the sample world errors out, is not finalized, and leaves the truncated
archive file in place. -/
theorem spec_c9_witness :
    ((runE failingOracle ["home"] "debug" sampleWorld).outcome =
       Except.error "EIO") ∧
    ((runE failingOracle ["home"] "debug" sampleWorld).finalized = false ∧
     fileExists (zip_path ["home"] "debug")
       (runE failingOracle ["home"] "debug" sampleWorld).world = true ∧
     (runE failingOracle ["home"] "debug" sampleWorld).world =
       ⟨zip_path ["home"] "debug",
         truncEncode (writeEntries failingOracle ["home"]
           (rglob (script_dir ["home"] "debug")
             (removeOld ["home"] "debug" sampleWorld))).1⟩ ::
         removeOld ["home"] "debug" sampleWorld) :=
  ⟨rfl, spec_c9 failingOracle ["home"] "debug" sampleWorld "EIO" rfl⟩

/-- C10: the archive never contains an entry for itself: the destination lies
outside the walked tree, no walked file has the destination path, and no
entry's name maps back to the destination path. -/
theorem spec_c10 (parent : FsPath) (name : String) :
    underDir (script_dir parent name) (zip_path parent name) = false ∧
    (∀ w, zip_path parent name ∉ (rglob (script_dir parent name) w).map FSFile.path) ∧
    (∀ w e, e ∈ archiveOf parent name w → parent ++ e.arcname ≠ zip_path parent name) := by
  refine ⟨underDir_zip parent name, ?_, ?_⟩
  · intro w hmem
    obtain ⟨f, hf, hp⟩ := List.mem_map.mp hmem
    have hu := (mem_rglob.mp hf).2
    rw [hp, underDir_zip] at hu
    exact Bool.false_ne_true hu
  · intro w e he hc
    obtain ⟨f, hfw, hu, hb, rfl⟩ := mem_archiveOf.mp he
    have happ : parent ++ (entryOf parent f).arcname = f.path :=
      append_relative_to hu
    rw [happ] at hc
    rw [hc, underDir_zip] at hu
    exact Bool.false_ne_true hu

end TheoremsThree

end Repackage
